import Mathlib

/-
Verification development for the kustomize-controller manifest build pipeline
(controllers/kustomization_generator.go).

The Go source is shallowly embedded:
  * the override spec, selectors, patches, images and the on-disk build
    descriptor (kustypes.Kustomization) are Lean structures;
  * the filesystem is an explicit tree value (directories, regular files,
    symbolic links); paths are lists of cleaned components, so an absolute
    path /a/b is the list ["a", "b"];
  * the secure filesystem of fluxcd/pkg/kustomize/filesys is modelled from
    the spec (section 4.1): every operation resolves the path (following
    leaf symlinks) and checks that the result lies below the root before
    touching the tree, while the plain os.ReadFile / os.WriteFile calls in
    the source resolve symlinks and touch the tree with no root check;
  * the recursive directory walk carries an explicit fuel parameter (the Go
    recursion is bounded by the finite on-disk tree; fuel plays that role
    here and every theorem is stated relative to an outcome, never to a
    particular fuel value);
  * the kustomize merge engine of krusty is opaque: an invocation either
    returns a resource map, returns an error, or panics, and
    secureBuildKustomization is modelled around that outcome together with
    the process-wide mutex and the two deferred handlers of the source.
-/

namespace KustomizeGen

/-- Selector as in the fluxcd kustomize API (kustomize.Selector). -/
structure Selector where
  group : String
  kind : String
  version : String
  name : String
  namespc : String
  labelSelector : String
  annotationSelector : String
deriving DecidableEq, Repr

/-- Selector as in sigs.k8s.io/kustomize/api/types (kustypes.Selector),
the target of adaptSelector. The Gvk sub-struct is flattened. -/
structure KustSelector where
  group : String
  kind : String
  version : String
  name : String
  namespc : String
  labelSelector : String
  annotationSelector : String
deriving DecidableEq, Repr

/-- Patch entry of the descriptor (kustypes.Patch). -/
structure KPatch where
  patch : String
  target : Option KustSelector
deriving DecidableEq, Repr

/-- Inline patch of the override spec (kustomize.Patch). -/
structure SpecPatch where
  patch : String
  target : Selector
deriving DecidableEq, Repr

/-- JSON6902 patch of the override spec: an ordered operation list plus a
target selector. Operations are kept opaque (strings); their JSON
serialization is a parameter of the pipeline, mirroring json.Marshal. -/
structure JsonPatch where
  patch : List String
  target : Selector
deriving DecidableEq, Repr

/-- Image override (kustomize.Image / kustypes.Image share these fields). -/
structure Image where
  name : String
  newName : String
  newTag : String
  digest : String
deriving DecidableEq, Repr

/-- The build descriptor (kustypes.Kustomization). The TypeMeta fields are
fixed constants in the source and are omitted. The Go field Namespace is
called namespc because namespace is a Lean keyword. -/
structure Kustomization where
  namespc : String
  resources : List String
  patches : List KPatch
  patchesStrategicMerge : List String
  patchesJson6902 : List KPatch
  images : List Image
deriving DecidableEq, Repr

/-- Descriptor with all fields empty, as produced by the kustypes literal in
the source before fields are filled in. -/
def emptyKustomization : Kustomization :=
  { namespc := "", resources := [], patches := [], patchesStrategicMerge := []
    patchesJson6902 := [], images := [] }

/-- The override spec (kustomizev1.KustomizationSpec fields read by WriteFile). -/
structure KSpec where
  targetNamespace : String
  patches : List SpecPatch
  patchesStrategicMerge : List String
  patchesJSON6902 : List JsonPatch
  images : List Image
deriving DecidableEq, Repr

/-- adaptSelector from the source: copies every field of the fluxcd selector
into a kustypes selector; a nil input yields a nil output. -/
def adaptSelector : Option Selector → Option KustSelector
  | some s =>
      some { group := s.group, kind := s.kind, version := s.version
             name := s.name, namespc := s.namespc
             labelSelector := s.labelSelector
             annotationSelector := s.annotationSelector }
  | none => none

/-- Conversion of one inline spec patch into a descriptor patch entry, as in
the loop over Spec.Patches in WriteFile. -/
def toKPatch (m : SpecPatch) : KPatch :=
  { patch := m.patch, target := adaptSelector (some m.target) }

/-- checkKustomizeImageExists, index search: first index whose Name equals
the given name. -/
def checkKustomizeImageExistsAux : List Image → String → Option Nat
  | [], _ => none
  | image :: rest, imageName =>
      if imageName = image.name then some 0
      else (checkKustomizeImageExistsAux rest imageName).map (· + 1)

/-- checkKustomizeImageExists from the source: (true, index of the first
entry with the given name) when present, (false, -1) otherwise. -/
def checkKustomizeImageExists (images : List Image) (imageName : String) :
    Bool × Int :=
  match checkKustomizeImageExistsAux images imageName with
  | some i => (true, (i : Int))
  | none => (false, -1)

/-- One iteration of the image loop of WriteFile: replace in place at the
found index, or append. -/
def imagesApply (images : List Image) (image : Image) : List Image :=
  let newImage : Image :=
    { name := image.name, newName := image.newName
      newTag := image.newTag, digest := image.digest }
  match checkKustomizeImageExists images image.name with
  | (true, index) => images.set index.toNat newImage
  | (false, _) => images ++ [newImage]

/-- Name-directed recursive form of imagesApply, used to prove properties of
the index-based source form. -/
def imagesApplyRec : List Image → Image → List Image
  | [], image => [image]
  | x :: xs, image =>
      if image.name = x.name then image :: xs else x :: imagesApplyRec xs image

/-- Pipeline errors. decodeErr carries the offending path, as the source
error message does; marshalErr carries the json.Marshal message. -/
inductive FsError where
  | pathEscape (p : List String)
  | notExist (p : List String)
  | readErr (p : List String)
  | walkErr (p : List String)
  | createErr (p : List String)
  | writeErr (p : List String)
  | decodeErr (p : List String)
  | fuelOut
  | unmarshalErr
  | marshalErr (msg : String)
  | rootErr
deriving DecidableEq, Repr

/-- The JSON6902 loop of WriteFile: marshal each operation list, append the
resulting patch with its adapted selector, abort on a marshal error. -/
def json6902Fold (mOps : List String → Except String String) :
    List JsonPatch → Kustomization → Except FsError Kustomization
  | [], k => .ok k
  | m :: rest, k =>
      match mOps m.patch with
      | .error e => .error (.marshalErr e)
      | .ok s =>
          json6902Fold mOps rest
            { k with patchesJson6902 :=
                k.patchesJson6902 ++ [{ patch := s, target := adaptSelector (some m.target) }] }

/-- The in-memory part of WriteFile between yaml.Unmarshal and yaml.Marshal:
namespace override, the three patch loops and the image loop, in source
order. -/
def applyOverrides (mOps : List String → Except String String) (spec : KSpec)
    (kus0 : Kustomization) : Except FsError Kustomization :=
  let kus1 :=
    if spec.targetNamespace ≠ "" then { kus0 with namespc := spec.targetNamespace } else kus0
  let kus2 :=
    spec.patches.foldl (fun k m => { k with patches := k.patches ++ [toKPatch m] }) kus1
  let kus3 :=
    spec.patchesStrategicMerge.foldl
      (fun k raw => { k with patchesStrategicMerge := k.patchesStrategicMerge ++ [raw] }) kus2
  match json6902Fold mOps spec.patchesJSON6902 kus3 with
  | .error e => .error e
  | .ok kus4 =>
      .ok (spec.images.foldl (fun k image => { k with images := imagesApply k.images image }) kus4)

/-- Marshal every JSON6902 operation list, returning the descriptor patch
entries to append, or the first marshal error. Written from the words of
the spec (section 4.3, override application) for comparison with
applyOverrides. -/
def marshalAllJson (mOps : List String → Except String String) :
    List JsonPatch → Except String (List KPatch)
  | [] => .ok []
  | m :: rest =>
      match mOps m.patch with
      | .error e => .error e
      | .ok s =>
          match marshalAllJson mOps rest with
          | .error e => .error e
          | .ok ps => .ok ({ patch := s, target := adaptSelector (some m.target) } :: ps)

/-- Override application as the spec words it (section 4.3): overwrite the
namespace when set, then append the adapted inline patches, then the
strategic-merge blobs, then the serialized JSON6902 patches, then fold the
image overrides; a serialization failure aborts the call. Written from the
spec for comparison with applyOverrides. -/
def applyOverridesSpec (mOps : List String → Except String String) (spec : KSpec)
    (kus0 : Kustomization) : Except FsError Kustomization :=
  let k1 :=
    if spec.targetNamespace ≠ "" then { kus0 with namespc := spec.targetNamespace } else kus0
  match marshalAllJson mOps spec.patchesJSON6902 with
  | .error e => .error (.marshalErr e)
  | .ok ps =>
      .ok { k1 with
              patches := k1.patches ++ spec.patches.map toKPatch
              patchesStrategicMerge := k1.patchesStrategicMerge ++ spec.patchesStrategicMerge
              patchesJson6902 := k1.patchesJson6902 ++ ps
              images := spec.images.foldl imagesApply k1.images }

/-- File contents, at the abstraction the pipeline observes: kusC is a file
whose yaml unmarshals into a Kustomization value, resC is any other file
with a flag telling whether rf.SliceFromBytes would accept it. -/
inductive FileContent where
  | kusC (k : Kustomization)
  | resC (resOk : Bool)
deriving DecidableEq, Repr

/-- Whether rf.SliceFromBytes accepts the file (a marshalled descriptor is
itself well-formed yaml). -/
def FileContent.resOk : FileContent → Bool
  | .kusC _ => true
  | .resC b => b

/-- Result of yaml.Unmarshal of the file into a Kustomization value. -/
def FileContent.asKus : FileContent → Option Kustomization
  | .kusC k => some k
  | .resC _ => none

/-- An on-disk tree: a regular file, a symbolic link holding an absolute
target path, or a directory with named children in iteration order. -/
inductive Entry where
  | file (c : FileContent)
  | symlink (target : List String)
  | dir (entries : List (String × Entry))
deriving Repr

/-- Absolute paths as lists of cleaned components (filepath.Abs output). -/
abbrev Path := List String

/-- First entry with the given name in a directory listing. -/
def lookupE : List (String × Entry) → String → Option Entry
  | [], _ => none
  | (m, e) :: rest, n => if n = m then some e else lookupE rest n

/-- Entry at a path, traversing directories only (paths here are cleaned,
and symlinks are resolved separately by resolvePath). -/
def lookupP (e : Entry) : Path → Option Entry
  | [] => some e
  | n :: rest =>
      match e with
      | .dir es =>
          match lookupE es n with
          | some sub => lookupP sub rest
          | none => none
      | _ => none

/-- Replace the first entry with the given name by a new entry. -/
def replaceE : List (String × Entry) → String → Entry → List (String × Entry)
  | [], _, _ => []
  | (m, e) :: rest, n, e' =>
      if n = m then (m, e') :: rest else (m, e) :: replaceE rest n e'

/-- Write a file into a directory listing: overwrite an existing regular
file, create the name when absent, fail on a directory (EISDIR) or an
unresolved symlink (ELOOP, possible only when resolution ran out of fuel). -/
def setLeaf : List (String × Entry) → String → FileContent → Option (List (String × Entry))
  | [], n, c => some [(n, .file c)]
  | (m, e) :: rest, n, c =>
      if n = m then
        match e with
        | .file _ => some ((m, .file c) :: rest)
        | .symlink _ => none
        | .dir _ => none
      else (setLeaf rest n c).map ((m, e) :: ·)

/-- Write a file at a path: every ancestor must exist as a directory
(os.WriteFile does not create directories). -/
def setP (e : Entry) : Path → FileContent → Option Entry
  | [], _ => none
  | [n], c =>
      match e with
      | .dir es => (setLeaf es n c).map Entry.dir
      | _ => none
  | n :: m :: rest, c =>
      match e with
      | .dir es =>
          match lookupE es n with
          | some sub => (setP sub (m :: rest) c).map (fun s => Entry.dir (replaceE es n s))
          | none => none
      | _ => none

/-- Follow a chain of leaf symlinks, with the Linux-style bound on the
number of links followed. -/
def resolveFuel (fs : Entry) : Nat → Path → Path
  | 0, p => p
  | Nat.succ fuel, p =>
      match lookupP fs p with
      | some (.symlink t) => resolveFuel fs fuel t
      | _ => p

/-- Symlink normalization of a path against the whole tree (40 is the Linux
follow bound). -/
def resolvePath (fs : Entry) (p : Path) : Path := resolveFuel fs 40 p

/-- Modelled from the spec (section 4.1): a path is acceptable to the secure
filesystem when, after symlink normalization, it lies below the root. -/
def securePathOk (fs : Entry) (root p : Path) : Bool :=
  root.isPrefixOf (resolvePath fs p)

/-- Modelled from the spec (section 4.1): securefs Exists — false outside
the root, otherwise existence of the resolved path. -/
def secExists (fs : Entry) (root p : Path) : Bool :=
  securePathOk fs root p && (lookupP fs (resolvePath fs p)).isSome

/-- Modelled from the spec (section 4.1): securefs IsDir. -/
def secIsDir (fs : Entry) (root p : Path) : Bool :=
  securePathOk fs root p &&
    match lookupP fs (resolvePath fs p) with
    | some (.dir _) => true
    | _ => false

/-- Modelled from the spec (section 4.1): securefs ReadFile — a PathEscape
error outside the root, no I/O in that case. -/
def secReadFile (fs : Entry) (root p : Path) : Except FsError FileContent :=
  if securePathOk fs root p then
    match lookupP fs (resolvePath fs p) with
    | some (.file c) => .ok c
    | some _ => .error (.readErr p)
    | none => .error (.notExist p)
  else .error (.pathEscape p)

/-- Content of the empty file produced by fs.Create before the descriptor
is written over it. -/
def emptyFileContent : FileContent := .resC true

/-- Modelled from the spec (section 4.1): securefs Create (plus the
immediate Close of the source), confined to the root. -/
def secCreate (fs : Entry) (root p : Path) : Except FsError Entry :=
  if securePathOk fs root p then
    match setP fs (resolvePath fs p) emptyFileContent with
    | some fs' => .ok fs'
    | none => .error (.createErr p)
  else .error (.pathEscape p)

/-- The unchecked os.ReadFile of the source: resolves symlinks and reads
with no root check. Returns the resolved path actually touched. -/
def osRead (fs : Entry) (p : Path) : Path × Except FsError FileContent :=
  let q := resolvePath fs p
  (q,
    match lookupP fs q with
    | some (.file c) => .ok c
    | some _ => .error (.readErr q)
    | none => .error (.notExist q))

/-- The unchecked os.WriteFile of the source: resolves symlinks and writes
with no root check. Returns the resolved path actually touched. -/
def osWrite (fs : Entry) (p : Path) (c : FileContent) : Path × Except FsError Entry :=
  let q := resolvePath fs p
  (q,
    match setP fs q c with
    | some fs' => .ok fs'
    | none => .error (.writeErr q))

/-- Unchecked I/O performed through the plain os package, with the resolved
path that was touched. -/
inductive OsEvent where
  | osRead (p : Path)
  | osWrite (p : Path)
deriving DecidableEq, Repr

/-- Path touched by an unchecked I/O operation. -/
def OsEvent.path : OsEvent → Path
  | .osRead p => p
  | .osWrite p => p

/-- Modelled from the kustomize konfig package: the recognized descriptor
filenames, in the order RecognizedKustomizationFileNames returns them. -/
def recognizedKustomizationFileNames : List String :=
  ["kustomization.yaml", "kustomization.yml", "Kustomization"]

/-- Modelled from the kustomize konfig package: DefaultKustomizationFileName. -/
def defaultKustomizationFileName : String := "kustomization.yaml"

/-- Suffix of a character list starting at its last dot, when one exists. -/
def lastDotSuffix : List Char → Option (List Char)
  | [] => none
  | c :: cs =>
      match lastDotSuffix cs with
      | some s => some s
      | none => if c = '.' then some (c :: cs) else none

/-- filepath.Ext of a single path component: the suffix starting at the
final dot, empty when there is no dot. -/
def fileExt (name : String) : String :=
  match lastDotSuffix name.data with
  | some s => String.mk s
  | none => ""

/-- The extension test of the walk callback: only .yaml and .yml files are
decoded. -/
def isYamlExt (e : String) : Bool := e == ".yaml" || e == ".yml"

/-- Final component of a path (the file name filepath.Ext looks at). -/
def lastComponent : Path → String
  | [] => ""
  | [n] => n
  | _ :: m :: rest => lastComponent (m :: rest)

/-- The descriptor-presence check the source performs both before generating
(lines 141-145) and at each walked directory (lines 161-166): some
recognized filename for which fs.Exists holds and fs.IsDir does not. -/
def hasKustomizationFileCheck (fs : Entry) (root p : Path) : Bool :=
  recognizedKustomizationFileNames.any fun n =>
    secExists fs root (p ++ [n]) && !secIsDir fs root (p ++ [n])

/-- Children of a directory as walk work items, in iteration order. -/
def entriesToTasks (p : Path) (es : List (String × Entry)) : List (Path × Entry) :=
  es.map fun ne => (p ++ [ne.1], ne.2)

/-- The walk of the scan closure, as a depth-first work list. A directory
with a recognized descriptor file is recorded and not descended into
(filepath.SkipDir); other directories are descended into; .yaml/.yml files
are read through the secure filesystem and must decode, other files are
skipped. The symlink case mirrors filepath.Walk, which does not follow
links while walking, so a link is presented as a non-directory file and a
.yaml link is read (and confined) through the secure filesystem. Fuel
bounds the walk; the Go recursion is bounded by the finite tree. -/
def scanGo (fs : Entry) (root : Path) : Nat → List (Path × Entry) → Except FsError (List Path)
  | _, [] => .ok []
  | 0, _ :: _ => .error .fuelOut
  | Nat.succ fuel, (p, e) :: stack =>
      match e with
      | .file c =>
          if isYamlExt (fileExt (lastComponent p)) then
            if securePathOk fs root p then
              if c.resOk then
                match scanGo fs root fuel stack with
                | .error err => .error err
                | .ok ps => .ok (p :: ps)
              else .error (.decodeErr p)
            else .error (.pathEscape p)
          else scanGo fs root fuel stack
      | .symlink _ =>
          if isYamlExt (fileExt (lastComponent p)) then
            match secReadFile fs root p with
            | .error err => .error err
            | .ok c =>
                if c.resOk then
                  match scanGo fs root fuel stack with
                  | .error err => .error err
                  | .ok ps => .ok (p :: ps)
                else .error (.decodeErr p)
          else scanGo fs root fuel stack
      | .dir es =>
          if hasKustomizationFileCheck fs root p then
            match scanGo fs root fuel stack with
            | .error err => .error err
            | .ok ps => .ok (p :: ps)
          else scanGo fs root fuel (entriesToTasks p es ++ stack)

/-- The scan closure of generateKustomization: walk the base directory
through the secure filesystem, skipping the base itself (the walk callback
returns nil on path == base before any check). -/
def scanTop (fuel : Nat) (fs : Entry) (root base : Path) : Except FsError (List Path) :=
  if securePathOk fs root base then
    match lookupP fs base with
    | some (.dir es) => scanGo fs root fuel (entriesToTasks base es)
    | some _ => .error (.walkErr base)
    | none => .error (.notExist base)
  else .error (.pathEscape base)

/-- Rendering of a component path as the slash-separated absolute string the
Go code manipulates, as a character list. -/
def renderPath : Path → List Char
  | [] => []
  | c :: rest => '/' :: c.data ++ renderPath rest

/-- strings.Replace with count 1 on character lists: replace the first
occurrence of pat (an empty pat matches at the start, as in Go). -/
def replaceFirstChars (pat rep : List Char) : List Char → List Char
  | [] => if pat.isPrefixOf ([] : List Char) then rep else []
  | c :: cs =>
      if pat.isPrefixOf (c :: cs) then rep ++ (c :: cs).drop pat.length
      else c :: replaceFirstChars pat rep cs

/-- The resource list written by generateKustomization: each scanned path
with the absolute base replaced once by ".", via strings.Replace. -/
def genResources (files : List Path) (abs : Path) : List String :=
  files.map fun f => String.mk (replaceFirstChars (renderPath abs) ['.'] (renderPath f))

/-- The part of generateKustomization that runs when no descriptor exists:
scan, create the default descriptor file through the secure filesystem,
then write the marshalled descriptor with the unchecked os.WriteFile. -/
def generateBody (fuel : Nat) (root dirPath : Path) (fs : Entry) :
    Entry × List OsEvent × Except FsError Unit :=
  match scanTop fuel fs root dirPath with
  | .error e => (fs, [], .error e)
  | .ok files =>
      let kfile := dirPath ++ [defaultKustomizationFileName]
      match secCreate fs root kfile with
      | .error e => (fs, [], .error e)
      | .ok fs1 =>
          let kus := { emptyKustomization with resources := genResources files dirPath }
          let w := osWrite fs1 kfile (.kusC kus)
          match w.2 with
          | .error e => (fs1, [.osWrite w.1], .error e)
          | .ok fs2 => (fs2, [.osWrite w.1], .ok ())

/-- generateKustomization: build the secure filesystem on the root (which
must be an existing directory), return at once when a recognized descriptor
filename exists as a non-directory directly in dirPath, otherwise generate. -/
def generateKustomization (fuel : Nat) (root dirPath : Path) (fs : Entry) :
    Entry × List OsEvent × Except FsError Unit :=
  match lookupP fs root with
  | some (.dir _) =>
      if hasKustomizationFileCheck fs root dirPath then (fs, [], .ok ())
      else generateBody fuel root dirPath fs
  | _ => (fs, [], .error .rootErr)

/-- The generator value of the source: sandbox root plus the override spec
of the Kustomization object. -/
structure KustomizeGenerator where
  root : Path
  spec : KSpec

/-- WriteFile: run generateKustomization, then read the default descriptor
with the unchecked os.ReadFile, unmarshal it, apply the overrides, and
write it back with the unchecked os.WriteFile. -/
def WriteFile (kg : KustomizeGenerator) (mOps : List String → Except String String)
    (fuel : Nat) (dirPath : Path) (fs : Entry) :
    Entry × List OsEvent × Except FsError Unit :=
  match generateKustomization fuel kg.root dirPath fs with
  | (fs1, evs, .error e) => (fs1, evs, .error e)
  | (fs1, evs, .ok _) =>
      let kfile := dirPath ++ [defaultKustomizationFileName]
      let r := osRead fs1 kfile
      match r.2 with
      | .error e => (fs1, evs ++ [.osRead r.1], .error e)
      | .ok c =>
          match c.asKus with
          | none => (fs1, evs ++ [.osRead r.1], .error .unmarshalErr)
          | some kus0 =>
              match applyOverrides mOps kg.spec kus0 with
              | .error e => (fs1, evs ++ [.osRead r.1], .error e)
              | .ok kus1 =>
                  let w := osWrite fs1 kfile (.kusC kus1)
                  match w.2 with
                  | .error e => (fs1, evs ++ [.osRead r.1, .osWrite w.1], .error e)
                  | .ok fs2 => (fs2, evs ++ [.osRead r.1, .osWrite w.1], .ok ())

/-- Outcome of one krusty.Kustomizer.Run invocation, with the merge engine
kept opaque: a resource map (abstracted to its resource ids), an ordinary
build error, or a panic carrying the formatted panic value. -/
inductive EngineOutcome where
  | success (out : List String)
  | failure (msg : String)
  | crash (msg : String)
deriving DecidableEq, Repr

/-- State of the process-wide kustomizeBuildMutex. -/
structure BuildLock where
  held : Bool
deriving DecidableEq, Repr

/-- Observable steps of one secureBuildKustomization invocation, in order:
the mutex is taken, the engine runs, the deferred recover handler observes
the outcome, the deferred unlock releases the mutex. -/
inductive BuildEvent where
  | lockAcquired
  | engineInvoked
  | recoverObserved
  | lockReleased
deriving DecidableEq, Repr

/-- Result of one secureBuildKustomization invocation in the sequential
model: a completed call (ordinary return value), a call blocked forever on
a mutex nobody will release, or a panic escaping the function. -/
inductive BuildOutcome where
  | completed (r : Except String (List String))
  | blockedOnLock
  | escapedPanic (msg : String)
deriving Repr

/-- The k.Run call: a normal result on the left, a panic value on the right. -/
def runKustomizerStep (engine : EngineOutcome) : Except String (List String) ⊕ String :=
  match engine with
  | .success out => .inl (.ok out)
  | .failure msg => .inl (.error msg)
  | .crash msg => .inr msg

/-- The deferred recover handler of the source (registered second, so it
runs first): a pending panic is turned into the recovered-panic error with
the panic value formatted into the message; a normal outcome passes through. -/
def recoverDefer (o : Except String (List String) ⊕ String) :
    Except String (List String) ⊕ String :=
  match o with
  | .inr m => .inl (.error ("recovered from kustomize build panic: " ++ m))
  | r => r

/-- secureBuildKustomization: pick the secure filesystem variant per
allowRemoteBases (each construction outcome is an input, the construction
happens before the mutex is taken), take the process-wide mutex, run the
engine, then run the deferred handlers in LIFO order: recover first, then
unlock. A Lock on a held mutex blocks forever in this sequential model. -/
def secureBuildKustomization (allowRemoteBases : Bool)
    (fsSecureBuild fsSecure : Except String Unit) (engine : EngineOutcome)
    (lock : BuildLock) : BuildOutcome × BuildLock × List BuildEvent :=
  match (if allowRemoteBases then fsSecureBuild else fsSecure) with
  | .error e => (.completed (.error e), lock, [])
  | .ok _ =>
      if lock.held then (.blockedOnLock, lock, [])
      else
        let body := runKustomizerStep engine
        let afterRecover := recoverDefer body
        let lockAfter : BuildLock := { held := false }
        let events : List BuildEvent :=
          [.lockAcquired, .engineInvoked, .recoverObserved, .lockReleased]
        match afterRecover with
        | .inl r => (.completed r, lockAfter, events)
        | .inr m => (.escapedPanic m, lockAfter, events)

/-- A tree with no symbolic link anywhere: no lookup yields one. -/
def SymFree (fs : Entry) : Prop :=
  ∀ (p : Path) (t : Path), lookupP fs p ≠ some (.symlink t)

/-- A tree containing, anywhere, a structured-data file that does not
decode as resources — the premise of the whole-scan-failure claim. -/
def ContainsUndecodableYaml (fs : Entry) : Prop :=
  ∃ (p : Path) (name : String) (c : FileContent),
    lookupP fs (p ++ [name]) = some (.file c)
    ∧ isYamlExt (fileExt name) = true ∧ FileContent.resOk c = false

/-- Concrete marshal function for witnesses: every operation list marshals. -/
def mops0 : List String → Except String String := fun _ => .ok "[]"

/-- Concrete descriptor used by the witness scenarios. -/
def kusOld : Kustomization := { emptyKustomization with namespc := "old" }

/-- kusOld with the namespace override applied. -/
def kusProd : Kustomization := { emptyKustomization with namespc := "prod" }

/-- Override spec that only sets the target namespace. -/
def specProd : KSpec :=
  { targetNamespace := "prod", patches := [], patchesStrategicMerge := []
    patchesJSON6902 := [], images := [] }

/-- Scenario tree for the sandbox-escape counterexample: inside the root
directory /r, the target directory /r/app holds a descriptor under the
non-default recognized name Kustomization plus a kustomization.yaml that is
a symbolic link to /out/k.yaml, which lies outside the root. -/
def fsA : Entry := .dir [
  ("r", .dir [("app", .dir [
     ("Kustomization", .file (.resC true)),
     ("kustomization.yaml", .symlink ["out", "k.yaml"])])]),
  ("out", .dir [("k.yaml", .file (.kusC kusOld))])]

/-- Scenario tree for the malformed-nested-file counterexample: /r/app/sub
is a nested build unit (it has its own descriptor) containing an
undecodable bad.yaml, and /r/app/good.yaml decodes fine. -/
def fsB : Entry := .dir [("r", .dir [("app", .dir [
  ("sub", .dir [
     ("kustomization.yaml", .file (.kusC emptyKustomization)),
     ("bad.yaml", .file (.resC false))]),
  ("good.yaml", .file (.resC true))])])]

/-- Scenario tree for the non-default-descriptor counterexample: /r/app
holds a descriptor only under the recognized name kustomization.yml. -/
def fsD : Entry := .dir [("r", .dir [("app", .dir [
  ("kustomization.yml", .file (.kusC kusOld))])])]

/-- Scenario tree with a directory named like a descriptor: /r/app holds a
directory called Kustomization containing a decodable a.yaml. -/
def fsE : Entry := .dir [("r", .dir [("app", .dir [
  ("Kustomization", .dir [("a.yaml", .file (.resC true))])])])]

/-- Scenario tree with a pre-existing descriptor under the default name. -/
def fsF : Entry := .dir [("r", .dir [("app", .dir [
  ("kustomization.yaml", .file (.kusC kusOld))])])]

theorem image_eta (i : Image) :
    ({ name := i.name, newName := i.newName, newTag := i.newTag, digest := i.digest } : Image)
      = i := rfl

theorem checkAux_lt {imgs : List Image} {name : String} {j : Nat}
    (h : checkKustomizeImageExistsAux imgs name = some j) : j < imgs.length := by
  induction imgs generalizing j with
  | nil => simp [checkKustomizeImageExistsAux] at h
  | cons x xs ih =>
      simp only [checkKustomizeImageExistsAux] at h
      by_cases hx : name = x.name
      · rw [if_pos hx] at h
        cases h
        simp
      · rw [if_neg hx] at h
        cases haux : checkKustomizeImageExistsAux xs name with
        | none => rw [haux] at h; simp at h
        | some k =>
            rw [haux] at h
            simp only [Option.map_some'] at h
            cases h
            have := ih haux
            simp only [List.length_cons]
            omega

theorem checkAux_name {imgs : List Image} {name : String} {j : Nat}
    (h : checkKustomizeImageExistsAux imgs name = some j) :
    ∃ y, imgs[j]? = some y ∧ y.name = name := by
  induction imgs generalizing j with
  | nil => simp [checkKustomizeImageExistsAux] at h
  | cons x xs ih =>
      simp only [checkKustomizeImageExistsAux] at h
      by_cases hx : name = x.name
      · rw [if_pos hx] at h
        cases h
        exact ⟨x, by simp, hx.symm⟩
      · rw [if_neg hx] at h
        cases haux : checkKustomizeImageExistsAux xs name with
        | none => rw [haux] at h; simp at h
        | some k =>
            rw [haux] at h
            simp only [Option.map_some'] at h
            cases h
            obtain ⟨y, hy, hyn⟩ := ih haux
            exact ⟨y, by simpa using hy, hyn⟩

theorem checkAux_none_iff {imgs : List Image} {name : String} :
    checkKustomizeImageExistsAux imgs name = none ↔ ∀ x ∈ imgs, x.name ≠ name := by
  induction imgs with
  | nil => simp [checkKustomizeImageExistsAux]
  | cons x xs ih =>
      simp only [checkKustomizeImageExistsAux]
      by_cases hx : name = x.name
      · simp [hx]
      · simp only [if_neg hx, Option.map_eq_none', ih, List.mem_cons]
        constructor
        · intro h y hy
          rcases hy with rfl | hy
          · exact fun hc => hx hc.symm
          · exact h y hy
        · intro h y hy
          exact h y (Or.inr hy)

theorem imagesApply_eq_rec (imgs : List Image) (img : Image) :
    imagesApply imgs img = imagesApplyRec imgs img := by
  induction imgs with
  | nil => rfl
  | cons x xs ih =>
      simp only [imagesApply, checkKustomizeImageExists, checkKustomizeImageExistsAux,
        imagesApplyRec]
      by_cases hx : img.name = x.name
      · rw [if_pos hx, if_pos hx]
        rfl
      · rw [if_neg hx, if_neg hx]
        cases haux : checkKustomizeImageExistsAux xs img.name with
        | none =>
            have : imagesApply xs img = xs ++ [img] := by
              simp [imagesApply, checkKustomizeImageExists, haux, image_eta]
            rw [← ih, this]
            rfl
        | some j =>
            have hlt := checkAux_lt haux
            have hxs : imagesApply xs img = xs.set j img := by
              simp [imagesApply, checkKustomizeImageExists, haux, image_eta]
            simp only [Option.map_some']
            show (x :: xs).set ((((j : Nat) + 1 : Nat) : Int)).toNat
                { name := img.name, newName := img.newName, newTag := img.newTag
                  digest := img.digest } = x :: imagesApplyRec xs img
            rw [image_eta]
            rw [← ih, hxs]
            rfl

theorem imagesApplyRec_lastWriter (imgs : List Image) (a b : Image)
    (h : a.name = b.name) :
    imagesApplyRec (imagesApplyRec imgs a) b = imagesApplyRec imgs b := by
  induction imgs with
  | nil => simp [imagesApplyRec, h]
  | cons x xs ih =>
      by_cases hx : a.name = x.name
      · have hb : b.name = x.name := h ▸ hx
        simp [imagesApplyRec, hx, hb, ← h]
      · have hb : ¬ b.name = x.name := fun hc => hx (h.trans hc)
        simp only [imagesApplyRec, if_neg hx, if_neg hb]
        by_cases hax : b.name = a.name
        · simp [imagesApplyRec, hax, ih]
        · simp only [imagesApplyRec, if_neg hax, if_neg hb] at *
          rw [ih]

theorem foldl_patches_eq (l : List SpecPatch) :
    ∀ k : Kustomization,
      l.foldl (fun k m => { k with patches := k.patches ++ [toKPatch m] }) k
        = { k with patches := k.patches ++ l.map toKPatch } := by
  induction l with
  | nil => intro k; simp
  | cons m rest ih =>
      intro k
      simp only [List.foldl_cons, List.map_cons]
      rw [ih]
      simp [List.append_assoc]

theorem foldl_psm_eq (l : List String) :
    ∀ k : Kustomization,
      l.foldl (fun k raw => { k with patchesStrategicMerge := k.patchesStrategicMerge ++ [raw] }) k
        = { k with patchesStrategicMerge := k.patchesStrategicMerge ++ l } := by
  induction l with
  | nil => intro k; simp
  | cons m rest ih =>
      intro k
      simp only [List.foldl_cons]
      rw [ih]
      simp [List.append_assoc]

theorem json6902Fold_eq (mOps : List String → Except String String) (ms : List JsonPatch) :
    ∀ k : Kustomization,
      json6902Fold mOps ms k
        = match marshalAllJson mOps ms with
          | .error e => .error (.marshalErr e)
          | .ok ps => .ok { k with patchesJson6902 := k.patchesJson6902 ++ ps } := by
  induction ms with
  | nil => intro k; simp [json6902Fold, marshalAllJson]
  | cons m rest ih =>
      intro k
      simp only [json6902Fold, marshalAllJson]
      cases mOps m.patch with
      | error e => rfl
      | ok s =>
          dsimp only
          rw [ih]
          cases marshalAllJson mOps rest with
          | error e => rfl
          | ok ps => simp [List.append_assoc]

theorem foldl_images_eq (l : List Image) :
    ∀ k : Kustomization,
      l.foldl (fun k image => { k with images := imagesApply k.images image }) k
        = { k with images := l.foldl imagesApply k.images } := by
  induction l with
  | nil => intro k; simp
  | cons x rest ih =>
      intro k
      simp only [List.foldl_cons]
      rw [ih]

/-- C6: an image override whose name already occurs in the descriptor image
list replaces the first entry with that name in place (position preserved,
every field overwritten, length unchanged, no duplicate appended); a name
not yet present is appended at the end; and for two overrides of the same
name in one call the last writer wins. -/
theorem spec_c6_image_override (images : List Image) (image : Image) :
    ((∃ x ∈ images, x.name = image.name) →
       ∃ j : Nat, checkKustomizeImageExists images image.name = (true, (j : Int))
         ∧ j < images.length
         ∧ (∃ y, images[j]? = some y ∧ y.name = image.name)
         ∧ imagesApply images image = images.set j image
         ∧ (images.set j image).length = images.length)
    ∧ ((∀ x ∈ images, x.name ≠ image.name) →
        checkKustomizeImageExists images image.name = (false, -1)
        ∧ imagesApply images image = images ++ [image])
    ∧ (∀ a b : Image, a.name = b.name →
        imagesApply (imagesApply images a) b = imagesApply images b) := by
  refine ⟨?_, ?_, ?_⟩
  · rintro ⟨x, hx, hxn⟩
    cases haux : checkKustomizeImageExistsAux images image.name with
    | none =>
        exact absurd hxn (checkAux_none_iff.mp haux x hx)
    | some j =>
        refine ⟨j, by simp [checkKustomizeImageExists, haux], checkAux_lt haux,
          checkAux_name haux, ?_, by simp⟩
        simp [imagesApply, checkKustomizeImageExists, haux, image_eta]
  · intro h
    have haux : checkKustomizeImageExistsAux images image.name = none :=
      checkAux_none_iff.mpr h
    exact ⟨by simp [checkKustomizeImageExists, haux],
      by simp [imagesApply, checkKustomizeImageExists, haux, image_eta]⟩
  · intro a b hab
    rw [imagesApply_eq_rec, imagesApply_eq_rec, imagesApply_eq_rec]
    exact imagesApplyRec_lastWriter images a b hab

/-- Witness for C6 at a concrete image list. -/
theorem spec_c6_image_override_witness :
    ∃ j : Nat,
      checkKustomizeImageExists [{ name := "app", newName := "", newTag := "", digest := "" }]
          (Image.name { name := "app", newName := "repo/app", newTag := "v2", digest := "" })
        = (true, (j : Int))
      ∧ j < ([{ name := "app", newName := "", newTag := "", digest := "" }] : List Image).length
      ∧ (∃ y, ([{ name := "app", newName := "", newTag := "", digest := "" }] : List Image)[j]?
            = some y
          ∧ y.name = Image.name { name := "app", newName := "repo/app", newTag := "v2", digest := "" })
      ∧ imagesApply [{ name := "app", newName := "", newTag := "", digest := "" }]
            { name := "app", newName := "repo/app", newTag := "v2", digest := "" }
          = ([{ name := "app", newName := "", newTag := "", digest := "" }] : List Image).set j
              { name := "app", newName := "repo/app", newTag := "v2", digest := "" }
      ∧ (([{ name := "app", newName := "", newTag := "", digest := "" }] : List Image).set j
            { name := "app", newName := "repo/app", newTag := "v2", digest := "" }).length
          = ([{ name := "app", newName := "", newTag := "", digest := "" }] : List Image).length :=
  (spec_c6_image_override [{ name := "app", newName := "", newTag := "", digest := "" }]
      { name := "app", newName := "repo/app", newTag := "v2", digest := "" }).1
    ⟨{ name := "app", newName := "", newTag := "", digest := "" }, by simp, rfl⟩

/-- C7: override application performs the namespace overwrite (only when the
target namespace is set), then appends the adapted inline patches in order,
then the strategic-merge blobs, then the serialized JSON6902 patches, then
folds the image overrides — exactly the staged form applyOverridesSpec; a
JSON6902 serialization failure is returned as the marshal error, and at the
WriteFile level such a failure aborts the call before the descriptor is
written back (the filesystem is returned unchanged). -/
theorem spec_c7_override_order (mOps : List String → Except String String)
    (spec : KSpec) (kus0 : Kustomization) :
    applyOverrides mOps spec kus0 = applyOverridesSpec mOps spec kus0
    ∧ (∀ e, marshalAllJson mOps spec.patchesJSON6902 = .error e →
        applyOverrides mOps spec kus0 = .error (.marshalErr e))
    ∧ (spec.targetNamespace = "" →
        ∀ k, applyOverrides mOps spec kus0 = .ok k → k.namespc = kus0.namespc)
    ∧ (spec.targetNamespace ≠ "" →
        ∀ k, applyOverrides mOps spec kus0 = .ok k → k.namespc = spec.targetNamespace)
    ∧ (∀ (root dirPath : Path) (fuel : Nat) (fs : Entry) (c : FileContent)
          (kus : Kustomization) (e : FsError),
        generateKustomization fuel root dirPath fs = (fs, [], .ok ()) →
        (osRead fs (dirPath ++ [defaultKustomizationFileName])).2 = .ok c →
        c.asKus = some kus →
        applyOverrides mOps spec kus = .error e →
        WriteFile ⟨root, spec⟩ mOps fuel dirPath fs
          = (fs, [.osRead (osRead fs (dirPath ++ [defaultKustomizationFileName])).1], .error e)) := by
  have hmain : applyOverrides mOps spec kus0 = applyOverridesSpec mOps spec kus0 := by
    unfold applyOverrides applyOverridesSpec
    dsimp only
    rw [foldl_patches_eq, foldl_psm_eq, json6902Fold_eq]
    cases marshalAllJson mOps spec.patchesJSON6902 with
    | error e => rfl
    | ok ps =>
        dsimp only
        rw [foldl_images_eq]
  refine ⟨hmain, ?_, ?_, ?_, ?_⟩
  · intro e he
    rw [hmain]
    unfold applyOverridesSpec
    dsimp only
    rw [he]
  · intro hns k hk
    rw [hmain] at hk
    unfold applyOverridesSpec at hk
    dsimp only at hk
    cases hm : marshalAllJson mOps spec.patchesJSON6902 with
    | error e => rw [hm] at hk; cases hk
    | ok ps =>
        rw [hm] at hk
        dsimp only at hk
        cases hk
        simp [hns]
  · intro hns k hk
    rw [hmain] at hk
    unfold applyOverridesSpec at hk
    dsimp only at hk
    cases hm : marshalAllJson mOps spec.patchesJSON6902 with
    | error e => rw [hm] at hk; cases hk
    | ok ps =>
        rw [hm] at hk
        dsimp only at hk
        cases hk
        simp [hns]
  · intro root dirPath fuel fs c kus e hgen hread hkus happ
    unfold WriteFile
    rw [hgen]
    dsimp only
    rw [hread]
    dsimp only
    rw [hkus]
    dsimp only
    rw [happ]
    simp

/-- Witness for C7 at a concrete spec and descriptor. -/
theorem spec_c7_override_order_witness :
    applyOverrides mops0 specProd kusOld = applyOverridesSpec mops0 specProd kusOld
    ∧ kusProd.namespc = specProd.targetNamespace :=
  ⟨(spec_c7_override_order mops0 specProd kusOld).1,
   (spec_c7_override_order mops0 specProd kusOld).2.2.2.1 (by decide) kusProd rfl⟩

/-- C2: when the merge engine panics inside secureBuildKustomization the
panic never escapes the function, and (when the secure filesystem was
constructed and the lock was free) the invocation completes with the
ordinary error whose message carries the panic value. -/
theorem spec_c2_panic_recovered (allow : Bool) (fsb fss : Except String Unit)
    (m : String) (lock : BuildLock) :
    (∀ m', (secureBuildKustomization allow fsb fss (.crash m) lock).1 ≠ .escapedPanic m')
    ∧ ((if allow then fsb else fss) = .ok () → lock.held = false →
        (secureBuildKustomization allow fsb fss (.crash m) lock).1
          = .completed (.error ("recovered from kustomize build panic: " ++ m))) := by
  constructor
  · intro m'
    unfold secureBuildKustomization
    cases h : (if allow then fsb else fss) with
    | error e => intro hc; cases hc
    | ok u =>
        cases hl : lock.held with
        | true => intro hc; cases hc
        | false =>
            simp only [hl, runKustomizerStep, recoverDefer]
            intro hc
            cases hc
  · intro hfs hl
    unfold secureBuildKustomization
    rw [hfs]
    simp [hl, runKustomizerStep, recoverDefer]

/-- Witness for C2 at a concrete panic value. -/
theorem spec_c2_panic_recovered_witness :
    (secureBuildKustomization false (.ok ()) (.ok ()) (.crash "boom") ⟨false⟩).1
      = .completed (.error "recovered from kustomize build panic: boom") :=
  (spec_c2_panic_recovered false (.ok ()) (.ok ()) "boom" ⟨false⟩).2 rfl rfl

/-- C3: the lock is taken before the engine runs and released on every exit
path (an invocation entered with a free lock always leaves it free, and the
event order is acquire, engine, recover, release, so recovery is scoped
before release completes); consequently any build invocation run after a
panic-recovered build completes instead of blocking on the lock. -/
theorem spec_c3_lock_release (allow : Bool) (fsb fss : Except String Unit)
    (engine : EngineOutcome) (lock : BuildLock) :
    (lock.held = false →
      ((secureBuildKustomization allow fsb fss engine lock).2.1).held = false)
    ∧ ((if allow then fsb else fss) = .ok () → lock.held = false →
        (secureBuildKustomization allow fsb fss engine lock).2.2
          = [.lockAcquired, .engineInvoked, .recoverObserved, .lockReleased])
    ∧ (∀ (m : String) (allow2 : Bool) (fsb2 fss2 : Except String Unit)
          (engine2 : EngineOutcome),
        (if allow2 then fsb2 else fss2) = .ok () →
        ∃ r, (secureBuildKustomization allow2 fsb2 fss2 engine2
                (secureBuildKustomization allow fsb fss (.crash m) ⟨false⟩).2.1).1
              = .completed r) := by
  refine ⟨?_, ?_, ?_⟩
  · intro hl
    unfold secureBuildKustomization
    cases h : (if allow then fsb else fss) with
    | error e => exact hl
    | ok u =>
        simp only [hl, Bool.false_eq_true, if_false]
        cases hrec : recoverDefer (runKustomizerStep engine) with
        | inl r => simp [hrec]
        | inr m => simp [hrec]
  · intro hfs hl
    unfold secureBuildKustomization
    rw [hfs]
    simp only [hl, Bool.false_eq_true, if_false]
    cases hrec : recoverDefer (runKustomizerStep engine) with
    | inl r => simp [hrec]
    | inr m => simp [hrec]
  · intro m allow2 fsb2 fss2 engine2 hfs2
    have hfree : ((secureBuildKustomization allow fsb fss (.crash m) ⟨false⟩).2.1).held = false := by
      unfold secureBuildKustomization
      cases h : (if allow then fsb else fss) with
      | error e => rfl
      | ok u => simp [runKustomizerStep, recoverDefer]
    revert hfree
    generalize (secureBuildKustomization allow fsb fss (.crash m) ⟨false⟩).2.1 = l1
    intro hfree
    unfold secureBuildKustomization
    rw [hfs2]
    simp only [hfree, Bool.false_eq_true, if_false]
    cases engine2 with
    | success out => exact ⟨.ok out, rfl⟩
    | failure msg => exact ⟨.error msg, rfl⟩
    | crash msg => exact ⟨.error ("recovered from kustomize build panic: " ++ msg), rfl⟩

/-- Witness for C3 at concrete invocations. -/
theorem spec_c3_lock_release_witness :
    ((secureBuildKustomization false (.ok ()) (.ok ()) (.crash "boom") ⟨false⟩).2.1).held = false
    ∧ (secureBuildKustomization false (.ok ()) (.ok ()) (.crash "boom") ⟨false⟩).2.2
        = [.lockAcquired, .engineInvoked, .recoverObserved, .lockReleased]
    ∧ ∃ r, (secureBuildKustomization true (.ok ()) (.error "x") (.success ["cfg"])
              (secureBuildKustomization false (.ok ()) (.ok ()) (.crash "boom") ⟨false⟩).2.1).1
            = .completed r :=
  ⟨(spec_c3_lock_release false (.ok ()) (.ok ()) (.crash "boom") ⟨false⟩).1 rfl,
   (spec_c3_lock_release false (.ok ()) (.ok ()) (.crash "boom") ⟨false⟩).2.1 rfl rfl,
   (spec_c3_lock_release false (.ok ()) (.ok ()) (.crash "boom") ⟨false⟩).2.2
     "boom" true (.ok ()) (.error "x") (.success ["cfg"]) rfl⟩

theorem lastComponent_append (p : Path) (n : String) :
    lastComponent (p ++ [n]) = n := by
  induction p with
  | nil => rfl
  | cons a rest ih =>
      cases rest with
      | nil => rfl
      | cons b rest' => simpa [lastComponent] using ih

theorem entriesToTasks_mem {p : Path} {es : List (String × Entry)}
    {x : Path × Entry} (h : x ∈ entriesToTasks p es) :
    ∃ n e, x = (p ++ [n], e) := by
  simp only [entriesToTasks, List.mem_map] at h
  obtain ⟨ne, _, rfl⟩ := h
  exact ⟨ne.1, ne.2, rfl⟩

theorem resolveFuel_of_nonlink (fs : Entry) (p : Path)
    (h : ∀ t, lookupP fs p ≠ some (.symlink t)) :
    ∀ fuel, resolveFuel fs fuel p = p := by
  intro fuel
  cases fuel with
  | zero => rfl
  | succ f =>
      show (match lookupP fs p with
            | some (.symlink t) => resolveFuel fs f t
            | _ => p) = p
      cases hl : lookupP fs p with
      | none => rfl
      | some e =>
          cases e with
          | file c => rfl
          | symlink t => exact absurd hl (h t)
          | dir es => rfl

theorem resolvePath_of_file {fs : Entry} {p : Path} {c : FileContent}
    (h : lookupP fs p = some (.file c)) : resolvePath fs p = p :=
  resolveFuel_of_nonlink fs p (fun t ht => by rw [h] at ht; cases ht) 40

theorem resolvePath_of_dir {fs : Entry} {p : Path} {es : List (String × Entry)}
    (h : lookupP fs p = some (.dir es)) : resolvePath fs p = p :=
  resolveFuel_of_nonlink fs p (fun t ht => by rw [h] at ht; cases ht) 40

theorem resolvePath_of_none {fs : Entry} {p : Path}
    (h : lookupP fs p = none) : resolvePath fs p = p :=
  resolveFuel_of_nonlink fs p (fun t ht => by rw [h] at ht; cases ht) 40

theorem resolvePath_symFree {fs : Entry} (hsf : SymFree fs) (p : Path) :
    resolvePath fs p = p :=
  resolveFuel_of_nonlink fs p (hsf p) 40

theorem prefix_snoc {l p : Path} {n : String} (h : l <+: p ++ [n]) :
    l <+: p ∨ l = p ++ [n] := by
  by_cases hlen : l.length ≤ p.length
  · exact Or.inl (List.prefix_of_prefix_length_le h (List.prefix_append p [n]) hlen)
  · right
    apply h.eq_of_length
    have := h.length_le
    simp only [List.length_append, List.length_cons, List.length_nil] at this ⊢
    omega

theorem scanGo_mem (fs : Entry) (root : Path) :
    ∀ (fuel : Nat) (tasks : List (Path × Entry)) (ps : List Path),
      scanGo fs root fuel tasks = .ok ps →
      ∀ q ∈ ps, ∃ t ∈ tasks, t.1 <+: q := by
  intro fuel
  induction fuel with
  | zero =>
      intro tasks ps h q hq
      cases tasks with
      | nil =>
          simp only [scanGo] at h
          cases h
          cases hq
      | cons t stack => simp [scanGo] at h
  | succ f ih =>
      intro tasks ps h q hq
      cases tasks with
      | nil =>
          simp only [scanGo] at h
          cases h
          cases hq
      | cons t stack =>
          obtain ⟨p, e⟩ := t
          cases e with
          | file c =>
              simp only [scanGo] at h
              by_cases hy : isYamlExt (fileExt (lastComponent p)) = true
              · rw [if_pos hy] at h
                by_cases hsec : securePathOk fs root p = true
                · rw [if_pos hsec] at h
                  by_cases hok : FileContent.resOk c = true
                  · rw [if_pos hok] at h
                    cases hrest : scanGo fs root f stack with
                    | error err => rw [hrest] at h; cases h
                    | ok ps' =>
                        rw [hrest] at h
                        cases h
                        rcases List.mem_cons.mp hq with rfl | hq'
                        · exact ⟨(q, .file c), List.mem_cons_self _ _, List.prefix_refl q⟩
                        · obtain ⟨t', ht', hpre⟩ := ih stack ps' hrest q hq'
                          exact ⟨t', List.mem_cons_of_mem _ ht', hpre⟩
                  · rw [if_neg hok] at h; cases h
                · rw [if_neg hsec] at h; cases h
              · rw [if_neg hy] at h
                obtain ⟨t', ht', hpre⟩ := ih stack ps h q hq
                exact ⟨t', List.mem_cons_of_mem _ ht', hpre⟩
          | symlink tgt =>
              simp only [scanGo] at h
              by_cases hy : isYamlExt (fileExt (lastComponent p)) = true
              · rw [if_pos hy] at h
                cases hrd : secReadFile fs root p with
                | error err => rw [hrd] at h; cases h
                | ok c =>
                    rw [hrd] at h
                    dsimp only at h
                    by_cases hok : FileContent.resOk c = true
                    · rw [if_pos hok] at h
                      cases hrest : scanGo fs root f stack with
                      | error err => rw [hrest] at h; cases h
                      | ok ps' =>
                          rw [hrest] at h
                          cases h
                          rcases List.mem_cons.mp hq with rfl | hq'
                          · exact ⟨(q, .symlink tgt), List.mem_cons_self _ _,
                              List.prefix_refl q⟩
                          · obtain ⟨t', ht', hpre⟩ := ih stack ps' hrest q hq'
                            exact ⟨t', List.mem_cons_of_mem _ ht', hpre⟩
                    · rw [if_neg hok] at h; cases h
              · rw [if_neg hy] at h
                obtain ⟨t', ht', hpre⟩ := ih stack ps h q hq
                exact ⟨t', List.mem_cons_of_mem _ ht', hpre⟩
          | dir es =>
              simp only [scanGo] at h
              by_cases hk : hasKustomizationFileCheck fs root p = true
              · rw [if_pos hk] at h
                cases hrest : scanGo fs root f stack with
                | error err => rw [hrest] at h; cases h
                | ok ps' =>
                    rw [hrest] at h
                    cases h
                    rcases List.mem_cons.mp hq with rfl | hq'
                    · exact ⟨(q, .dir es), List.mem_cons_self _ _, List.prefix_refl q⟩
                    · obtain ⟨t', ht', hpre⟩ := ih stack ps' hrest q hq'
                      exact ⟨t', List.mem_cons_of_mem _ ht', hpre⟩
              · rw [if_neg hk] at h
                obtain ⟨t', ht', hpre⟩ := ih (entriesToTasks p es ++ stack) ps h q hq
                rcases List.mem_append.mp ht' with hin | hin
                · obtain ⟨n, e', rfl⟩ := entriesToTasks_mem hin
                  exact ⟨(p, .dir es), List.mem_cons_self _ _,
                    (List.prefix_append p [n]).trans hpre⟩
                · exact ⟨t', List.mem_cons_of_mem _ hin, hpre⟩

theorem scanGo_strict {fs : Entry} {root p : Path} {es : List (String × Entry)}
    {fuel : Nat} {ps : List Path} (h : scanGo fs root fuel (entriesToTasks p es) = .ok ps) :
    ∀ q ∈ ps, ∃ (n : String) (rest : Path), q = p ++ n :: rest := by
  intro q hq
  obtain ⟨t, ht, hpre⟩ := scanGo_mem fs root fuel (entriesToTasks p es) ps h q hq
  obtain ⟨n, e, rfl⟩ := entriesToTasks_mem ht
  obtain ⟨rest, rfl⟩ := hpre
  exact ⟨n, rest, by simp⟩

theorem scanGo_not_self {fs : Entry} {root p : Path} {es : List (String × Entry)}
    {fuel : Nat} {ps : List Path} (h : scanGo fs root fuel (entriesToTasks p es) = .ok ps) :
    p ∉ ps := by
  intro hp
  obtain ⟨n, rest, heq⟩ := scanGo_strict h p hp
  have : p.length = p.length + (n :: rest).length := by
    conv_lhs => rw [heq]
    simp
  simp at this

theorem renderPath_append (a b : Path) :
    renderPath (a ++ b) = renderPath a ++ renderPath b := by
  induction a with
  | nil => rfl
  | cons c rest ih => simp [renderPath, ih]

theorem replaceFirstChars_prefix (pat rep s : List Char) :
    replaceFirstChars pat rep (pat ++ s) = rep ++ s := by
  cases pat with
  | nil =>
      cases s with
      | nil => simp [replaceFirstChars]
      | cons c cs => simp [replaceFirstChars]
  | cons a pat' =>
      show replaceFirstChars (a :: pat') rep (a :: (pat' ++ s)) = rep ++ s
      have hpre : (a :: pat').isPrefixOf (a :: (pat' ++ s)) = true :=
        List.isPrefixOf_iff_prefix.mpr (List.prefix_append (a :: pat') s)
      simp only [replaceFirstChars, if_pos hpre]
      congr 1
      exact List.drop_left (a :: pat') s

/-- C4: a directory reached by the walk whose descriptor check succeeds is
recorded exactly once as a resource (the walk contributes that directory
and nothing below it, independently of its contents) and is not descended
into; a directory whose check fails is descended into and never appears in
the result of scanning its own subtree; and a directory that directly
contains a regular file named like a recognized descriptor (inside the
root) passes the check. -/
theorem spec_c4_nested_descriptor :
    (∀ (fs : Entry) (root p : Path) (es : List (String × Entry)) (fuel : Nat)
        (stack : List (Path × Entry)),
      hasKustomizationFileCheck fs root p = true →
      scanGo fs root (fuel + 1) ((p, Entry.dir es) :: stack)
        = match scanGo fs root fuel stack with
          | .ok ps => .ok (p :: ps)
          | .error e => .error e)
    ∧ (∀ (fs : Entry) (root p : Path) (es : List (String × Entry)) (fuel : Nat)
          (stack : List (Path × Entry)),
        hasKustomizationFileCheck fs root p = false →
        scanGo fs root (fuel + 1) ((p, Entry.dir es) :: stack)
          = scanGo fs root fuel (entriesToTasks p es ++ stack))
    ∧ (∀ (fs : Entry) (root p : Path) (es : List (String × Entry)) (fuel : Nat)
          (ps : List Path),
        scanGo fs root fuel (entriesToTasks p es) = .ok ps → p ∉ ps)
    ∧ (∀ (fs : Entry) (root p : Path) (n : String) (c : FileContent),
        n ∈ recognizedKustomizationFileNames →
        lookupP fs (p ++ [n]) = some (.file c) →
        root.isPrefixOf p = true →
        hasKustomizationFileCheck fs root p = true) := by
  refine ⟨?_, ?_, ?_, ?_⟩
  · intro fs root p es fuel stack hk
    simp only [scanGo, if_pos hk]
    cases scanGo fs root fuel stack <;> rfl
  · intro fs root p es fuel stack hk
    simp only [scanGo, if_neg (by simp [hk] : ¬ hasKustomizationFileCheck fs root p = true)]
  · intro fs root p es fuel ps h
    exact scanGo_not_self h
  · intro fs root p n c hn hlook hpre
    unfold hasKustomizationFileCheck
    apply List.any_eq_true.mpr
    refine ⟨n, hn, ?_⟩
    have hres : resolvePath fs (p ++ [n]) = p ++ [n] := resolvePath_of_file hlook
    have hsec : securePathOk fs root (p ++ [n]) = true := by
      unfold securePathOk
      rw [hres]
      exact List.isPrefixOf_iff_prefix.mpr
        ((List.isPrefixOf_iff_prefix.mp hpre).trans (List.prefix_append p [n]))
    simp [secExists, secIsDir, hsec, hres, hlook]

/-- Witness for C4: the nested build unit of fsB is recorded once, opaquely. -/
theorem spec_c4_nested_descriptor_witness :
    scanGo fsB ["r"] 6
        [(["r", "app", "sub"],
          Entry.dir [("kustomization.yaml", .file (.kusC emptyKustomization)),
                     ("bad.yaml", .file (.resC false))])]
      = .ok [["r", "app", "sub"]] := by
  have h := spec_c4_nested_descriptor.1 fsB ["r"] ["r", "app", "sub"]
    [("kustomization.yaml", .file (.kusC emptyKustomization)),
     ("bad.yaml", .file (.resC false))] 5 [] rfl
  simpa using h

/-- C5 (amended): a .yaml/.yml file reached by the walk that fails to decode
fails the whole scan with an error naming the offending path; a file with
any other extension is skipped without its content being consulted; and
when the scan fails, generateKustomization returns the error and leaves the
filesystem untouched (no descriptor is written). -/
theorem spec_c5_decode_failure :
    (∀ (fs : Entry) (root p : Path) (name : String) (c : FileContent) (fuel : Nat)
        (stack : List (Path × Entry)),
      isYamlExt (fileExt name) = true →
      FileContent.resOk c = false →
      lookupP fs (p ++ [name]) = some (.file c) →
      root.isPrefixOf (p ++ [name]) = true →
      scanGo fs root (fuel + 1) ((p ++ [name], Entry.file c) :: stack)
        = .error (.decodeErr (p ++ [name])))
    ∧ (∀ (fs : Entry) (root p : Path) (c : FileContent) (fuel : Nat)
          (stack : List (Path × Entry)),
        isYamlExt (fileExt (lastComponent p)) = false →
        scanGo fs root (fuel + 1) ((p, Entry.file c) :: stack)
          = scanGo fs root fuel stack)
    ∧ (∀ (fuel : Nat) (root dirPath : Path) (fs : Entry) (e : FsError),
        (∃ es, lookupP fs root = some (Entry.dir es)) →
        hasKustomizationFileCheck fs root dirPath = false →
        scanTop fuel fs root dirPath = .error e →
        generateKustomization fuel root dirPath fs = (fs, [], .error e)) := by
  refine ⟨?_, ?_, ?_⟩
  · intro fs root p name c fuel stack hy hok hlook hpre
    have hlast : lastComponent (p ++ [name]) = name := lastComponent_append p name
    have hres : resolvePath fs (p ++ [name]) = p ++ [name] := resolvePath_of_file hlook
    have hsec : securePathOk fs root (p ++ [name]) = true := by
      unfold securePathOk
      rw [hres]
      exact hpre
    simp only [scanGo, hlast, if_pos hy, if_pos hsec, hok, Bool.false_eq_true, if_false]
  · intro fs root p c fuel stack hy
    simp only [scanGo, if_neg (by simp [hy] : ¬ isYamlExt (fileExt (lastComponent p)) = true)]
  · intro fuel root dirPath fs e hroot hk hscan
    obtain ⟨es, hroot⟩ := hroot
    unfold generateKustomization
    rw [hroot]
    dsimp only
    rw [if_neg (by simp [hk] : ¬ hasKustomizationFileCheck fs root dirPath = true)]
    unfold generateBody
    rw [hscan]

/-- Witness for C5: the undecodable bad.yaml of fsB, when actually reached
by the walk, fails the scan naming its path. -/
theorem spec_c5_decode_failure_witness :
    scanGo fsB ["r"] 5 [(["r", "app", "sub", "bad.yaml"], Entry.file (.resC false))]
      = .error (.decodeErr ["r", "app", "sub", "bad.yaml"]) :=
  spec_c5_decode_failure.1 fsB ["r"] ["r", "app", "sub"] "bad.yaml" (.resC false) 4 []
    rfl rfl rfl rfl

/-- Counterexample to C5 as stated: fsB contains an undecodable .yaml file
(under the nested build unit /r/app/sub), yet the scan of /r/app succeeds
and descriptor generation completes and writes a descriptor — the claim
that any tree containing such a file makes the whole scan fail, with
nothing written, is false on the code. -/
theorem spec_c5_counterexample :
    ContainsUndecodableYaml fsB
    ∧ scanTop 10 fsB ["r"] ["r", "app"]
        = .ok [["r", "app", "sub"], ["r", "app", "good.yaml"]]
    ∧ (generateKustomization 10 ["r"] ["r", "app"] fsB).2.2 = .ok ()
    ∧ lookupP (generateKustomization 10 ["r"] ["r", "app"] fsB).1
          ["r", "app", "kustomization.yaml"]
        = some (.file (.kusC
            { emptyKustomization with resources := ["./sub", "./good.yaml"] })) := by
  refine ⟨⟨["r", "app", "sub"], "bad.yaml", .resC false, rfl, rfl, rfl⟩, rfl, rfl, rfl⟩

/-- C9: every resource path produced by descriptor generation comes from
replacing the absolute base prefix of a scanned path by ".", so it begins
with "./" and no absolute path occurs in the generated resource list. -/
theorem spec_c9_relative_paths (fuel : Nat) (fs : Entry) (root dirPath : Path)
    (files : List Path) (h : scanTop fuel fs root dirPath = .ok files) :
    ∀ r ∈ genResources files dirPath,
      (∃ t, r = String.mk ('.' :: '/' :: t)) ∧ ∀ t, r ≠ String.mk ('/' :: t) := by
  unfold scanTop at h
  by_cases hsec : securePathOk fs root dirPath = true
  · rw [if_pos hsec] at h
    cases hl : lookupP fs dirPath with
    | none => rw [hl] at h; cases h
    | some e =>
        cases e with
        | file c => rw [hl] at h; cases h
        | symlink t => rw [hl] at h; cases h
        | dir es =>
            rw [hl] at h
            dsimp only at h
            intro r hr
            simp only [genResources, List.mem_map] at hr
            obtain ⟨f, hf, rfl⟩ := hr
            obtain ⟨n, rest, rfl⟩ := scanGo_strict h f hf
            have hren : renderPath (dirPath ++ n :: rest)
                = renderPath dirPath ++ ('/' :: (n.data ++ renderPath rest)) := by
              rw [renderPath_append]
              rfl
            constructor
            · refine ⟨n.data ++ renderPath rest, ?_⟩
              rw [hren, replaceFirstChars_prefix]
              rfl
            · intro t hc
              rw [hren, replaceFirstChars_prefix] at hc
              have := congrArg String.data hc
              simp at this
  · rw [if_neg hsec] at h
    cases h

/-- Witness for C9 on the fsE scan. -/
theorem spec_c9_relative_paths_witness :
    ∃ t, String.mk (replaceFirstChars (renderPath ["r", "app"]) ['.']
            (renderPath ["r", "app", "Kustomization", "a.yaml"]))
          = String.mk ('.' :: '/' :: t) :=
  (spec_c9_relative_paths 10 fsE ["r"] ["r", "app"]
      [["r", "app", "Kustomization", "a.yaml"]] rfl
      (String.mk (replaceFirstChars (renderPath ["r", "app"]) ['.']
        (renderPath ["r", "app", "Kustomization", "a.yaml"])))
      (by simp [genResources])).1

/-- C10: in both the generation-skip check and the nested-descriptor check,
a directory entry named like a recognized descriptor does not count — the
per-name test is false on a directory and reduces to the root-confinement
test on a regular file — so a directory named like a descriptor leaves
generation running (generateKustomization proceeds to its generating body)
and scanning descends as if no descriptor were present. -/
theorem spec_c10_descriptor_dir :
    (∀ (fs : Entry) (root p : Path) (n : String) (es' : List (String × Entry)),
      lookupP fs (p ++ [n]) = some (.dir es') →
      (secExists fs root (p ++ [n]) && !secIsDir fs root (p ++ [n])) = false)
    ∧ (∀ (fs : Entry) (root p : Path) (n : String) (c : FileContent),
        lookupP fs (p ++ [n]) = some (.file c) →
        (secExists fs root (p ++ [n]) && !secIsDir fs root (p ++ [n]))
          = root.isPrefixOf (p ++ [n]))
    ∧ (∀ (fuel : Nat) (fs : Entry) (root dirPath : Path),
        (∃ es, lookupP fs root = some (Entry.dir es)) →
        hasKustomizationFileCheck fs root dirPath = false →
        generateKustomization fuel root dirPath fs = generateBody fuel root dirPath fs)
    ∧ (∀ (fs : Entry) (root p : Path) (es : List (String × Entry)) (fuel : Nat)
          (stack : List (Path × Entry)),
        hasKustomizationFileCheck fs root p = false →
        scanGo fs root (fuel + 1) ((p, Entry.dir es) :: stack)
          = scanGo fs root fuel (entriesToTasks p es ++ stack)) := by
  refine ⟨?_, ?_, ?_, ?_⟩
  · intro fs root p n es' hlook
    have hres : resolvePath fs (p ++ [n]) = p ++ [n] := resolvePath_of_dir hlook
    simp [secExists, secIsDir, securePathOk, hres, hlook, Bool.and_comm]
  · intro fs root p n c hlook
    have hres : resolvePath fs (p ++ [n]) = p ++ [n] := resolvePath_of_file hlook
    simp [secExists, secIsDir, securePathOk, hres, hlook]
  · intro fuel fs root dirPath hroot hk
    obtain ⟨es, hroot⟩ := hroot
    unfold generateKustomization
    rw [hroot]
    dsimp only
    rw [if_neg (by simp [hk] : ¬ hasKustomizationFileCheck fs root dirPath = true)]
  · intro fs root p es fuel stack hk
    simp only [scanGo, if_neg (by simp [hk] : ¬ hasKustomizationFileCheck fs root p = true)]

/-- Witness for C10: with a directory named Kustomization in the target
directory, generation is not skipped and proceeds to the generating body. -/
theorem spec_c10_descriptor_dir_witness :
    generateKustomization 10 ["r"] ["r", "app"] fsE
      = generateBody 10 ["r"] ["r", "app"] fsE :=
  spec_c10_descriptor_dir.2.2.1 10 fsE ["r"] ["r", "app"]
    ⟨[("app", Entry.dir [("Kustomization", Entry.dir [("a.yaml", .file (.resC true))])])], rfl⟩
    rfl

/-- C8 (amended): generation runs only when no recognized descriptor name
exists as a non-directory directly in the target directory, and when one
exists generateKustomization returns at once leaving the filesystem
untouched; override application then reads only the default descriptor
filename — when the default name holds the descriptor, WriteFile applies
the overrides to it and writes it back in place, but when the skip was
triggered by a non-default name alone, WriteFile fails with a not-exist
read error and touches nothing. -/
theorem spec_c8_generation_skip (mOps : List String → Except String String)
    (spec : KSpec) (fuel : Nat) (root dirPath : Path) (fs : Entry) :
    (hasKustomizationFileCheck fs root dirPath = true →
       (∃ es, lookupP fs root = some (Entry.dir es)) →
       generateKustomization fuel root dirPath fs = (fs, [], .ok ()))
    ∧ (hasKustomizationFileCheck fs root dirPath = false →
        (∃ es, lookupP fs root = some (Entry.dir es)) →
        generateKustomization fuel root dirPath fs = generateBody fuel root dirPath fs)
    ∧ (hasKustomizationFileCheck fs root dirPath = true →
        (∃ es, lookupP fs root = some (Entry.dir es)) →
        ∀ (k kus1 : Kustomization) (fs2 : Entry),
          lookupP fs (dirPath ++ [defaultKustomizationFileName])
            = some (.file (.kusC k)) →
          applyOverrides mOps spec k = .ok kus1 →
          setP fs (dirPath ++ [defaultKustomizationFileName]) (.kusC kus1) = some fs2 →
          WriteFile ⟨root, spec⟩ mOps fuel dirPath fs
            = (fs2, [.osRead (dirPath ++ [defaultKustomizationFileName]),
                     .osWrite (dirPath ++ [defaultKustomizationFileName])], .ok ()))
    ∧ (hasKustomizationFileCheck fs root dirPath = true →
        (∃ es, lookupP fs root = some (Entry.dir es)) →
        lookupP fs (dirPath ++ [defaultKustomizationFileName]) = none →
        WriteFile ⟨root, spec⟩ mOps fuel dirPath fs
          = (fs, [.osRead (dirPath ++ [defaultKustomizationFileName])],
             .error (.notExist (dirPath ++ [defaultKustomizationFileName])))) := by
  have hskip : hasKustomizationFileCheck fs root dirPath = true →
      (∃ es, lookupP fs root = some (Entry.dir es)) →
      generateKustomization fuel root dirPath fs = (fs, [], .ok ()) := by
    intro hk hroot
    obtain ⟨es, hr⟩ := hroot
    unfold generateKustomization
    rw [hr]
    dsimp only
    rw [if_pos hk]
  refine ⟨hskip, ?_, ?_, ?_⟩
  · intro hk hroot
    obtain ⟨es, hr⟩ := hroot
    unfold generateKustomization
    rw [hr]
    dsimp only
    rw [if_neg (by simp [hk] : ¬ hasKustomizationFileCheck fs root dirPath = true)]
  · intro hk hroot k kus1 fs2 hlook happ hset
    have hgen := hskip hk hroot
    have hres : resolvePath fs (dirPath ++ [defaultKustomizationFileName])
        = dirPath ++ [defaultKustomizationFileName] := resolvePath_of_file hlook
    unfold WriteFile
    rw [hgen]
    dsimp only
    unfold osRead osWrite
    rw [hres]
    dsimp only
    rw [hlook]
    dsimp only [FileContent.asKus]
    rw [happ]
    dsimp only
    rw [hset]
    simp
  · intro hk hroot hnone
    have hgen := hskip hk hroot
    have hres : resolvePath fs (dirPath ++ [defaultKustomizationFileName])
        = dirPath ++ [defaultKustomizationFileName] := resolvePath_of_none hnone
    unfold WriteFile
    rw [hgen]
    dsimp only
    unfold osRead
    rw [hres]
    dsimp only
    rw [hnone]
    simp

/-- Counterexample to C8 as stated: in fsD the descriptor exists only under
the recognized non-default name kustomization.yml, so generation is skipped
(the file is left untouched), but the override-application step does not
run on it — WriteFile fails reading the default name and the existing
descriptor keeps its old namespace instead of the override's. -/
theorem spec_c8_counterexample :
    hasKustomizationFileCheck fsD ["r"] ["r", "app"] = true
    ∧ lookupP fsD ["r", "app", "kustomization.yml"] = some (.file (.kusC kusOld))
    ∧ WriteFile ⟨["r"], specProd⟩ mops0 10 ["r", "app"] fsD
        = (fsD, [.osRead ["r", "app", "kustomization.yaml"]],
           .error (.notExist ["r", "app", "kustomization.yaml"]))
    ∧ lookupP (WriteFile ⟨["r"], specProd⟩ mops0 10 ["r", "app"] fsD).1
          ["r", "app", "kustomization.yml"] = some (.file (.kusC kusOld))
    ∧ kusOld.namespc ≠ specProd.targetNamespace :=
  ⟨rfl, rfl, rfl, rfl, by decide⟩

theorem symFree_file (c : FileContent) : SymFree (.file c) := by
  intro p t
  cases p <;> simp [lookupP]

theorem symFree_dirNil : SymFree (.dir []) := by
  intro p t
  cases p <;> simp [lookupP, lookupE]

theorem symFree_dirCons (n : String) (e : Entry) (es : List (String × Entry))
    (he : SymFree e) (hes : SymFree (.dir es)) : SymFree (.dir ((n, e) :: es)) := by
  intro p t
  cases p with
  | nil => simp [lookupP]
  | cons m rest =>
      show (match lookupE ((n, e) :: es) m with
            | some sub => lookupP sub rest
            | none => none) ≠ some (.symlink t)
      by_cases hm : m = n
      · simp only [lookupE, if_pos hm]
        exact he rest t
      · simp only [lookupE, if_neg hm]
        exact hes (m :: rest) t

theorem symFree_lookupE {es : List (String × Entry)} {n : String} {sub : Entry}
    (h : SymFree (.dir es)) (hl : lookupE es n = some sub) : SymFree sub := by
  intro q t hq
  apply h (n :: q) t
  show (match lookupE es n with
        | some sub => lookupP sub q
        | none => none) = some (.symlink t)
  rw [hl]
  exact hq

theorem lookupE_setLeaf {es es' : List (String × Entry)} {n : String} {c : FileContent}
    (h : setLeaf es n c = some es') :
    ∀ m, lookupE es' m = if m = n then some (.file c) else lookupE es m := by
  induction es generalizing es' with
  | nil =>
      cases h
      intro m
      by_cases hm : m = n
      · simp [lookupE, hm]
      · simp [lookupE, hm]
  | cons ke rest ih =>
      obtain ⟨k, e⟩ := ke
      intro m
      simp only [setLeaf] at h
      by_cases hk : n = k
      · rw [if_pos hk] at h
        cases e with
        | file c0 =>
            cases h
            by_cases hm : m = n
            · rw [if_pos hm]
              simp [lookupE, hm.trans hk]
            · rw [if_neg hm]
              have hmk : ¬ m = k := fun hc => hm (hc.trans hk.symm)
              simp [lookupE, hmk]
        | symlink t0 => cases h
        | dir es0 => cases h
      · rw [if_neg hk] at h
        cases hrest : setLeaf rest n c with
        | none => rw [hrest] at h; cases h
        | some rest' =>
            rw [hrest] at h
            cases h
            by_cases hm : m = k
            · have hmn : ¬ m = n := fun hc => hk (hc.symm.trans hm)
              rw [if_neg hmn]
              simp [lookupE, hm]
            · simp only [lookupE, if_neg hm]
              exact ih hrest m

theorem lookupE_replaceE {es : List (String × Entry)} {n : String} {sub : Entry}
    (hl : lookupE es n = some sub) (x : Entry) :
    ∀ m, lookupE (replaceE es n x) m = if m = n then some x else lookupE es m := by
  induction es with
  | nil => simp [lookupE] at hl
  | cons ke rest ih =>
      obtain ⟨k, e⟩ := ke
      intro m
      by_cases hk : n = k
      · simp only [replaceE, if_pos hk]
        by_cases hm : m = n
        · rw [if_pos hm]
          simp [lookupE, hm.trans hk]
        · rw [if_neg hm]
          have hmk : ¬ m = k := fun hc => hm (hc.trans hk.symm)
          simp [lookupE, hmk]
      · simp only [replaceE, if_neg hk]
        have hl' : lookupE rest n = some sub := by
          simpa [lookupE, if_neg hk] using hl
        by_cases hm : m = k
        · have hmn : ¬ m = n := fun hc => hk (hc.symm.trans hm)
          rw [if_neg hmn]
          simp [lookupE, hm]
        · simp only [lookupE, if_neg hm]
          exact ih hl' m

theorem symFree_setP : ∀ (p : Path) (fs fs' : Entry) (c : FileContent),
    SymFree fs → setP fs p c = some fs' → SymFree fs'
  | [], fs, fs', c => by
      intro _ h
      simp [setP] at h
  | [n], fs, fs', c => by
      intro hsf h
      cases fs with
      | file c0 => simp [setP] at h
      | symlink t0 => simp [setP] at h
      | dir es =>
          simp only [setP] at h
          cases hleaf : setLeaf es n c with
          | none => rw [hleaf] at h; simp at h
          | some es' =>
              rw [hleaf] at h
              simp only [Option.map_some'] at h
              cases h
              intro q t
              cases q with
              | nil => simp [lookupP]
              | cons m rest =>
                  show (match lookupE es' m with
                        | some sub => lookupP sub rest
                        | none => none) ≠ some (.symlink t)
                  rw [lookupE_setLeaf hleaf m]
                  by_cases hm : m = n
                  · rw [if_pos hm]
                    exact symFree_file c rest t
                  · rw [if_neg hm]
                    cases he : lookupE es m with
                    | none => simp
                    | some sub =>
                        exact symFree_lookupE hsf he rest t
  | n :: m :: rest, fs, fs', c => by
      intro hsf h
      cases fs with
      | file c0 => simp [setP] at h
      | symlink t0 => simp [setP] at h
      | dir es =>
          simp only [setP] at h
          cases he : lookupE es n with
          | none => rw [he] at h; simp at h
          | some sub =>
              rw [he] at h
              dsimp only at h
              cases hsub : setP sub (m :: rest) c with
              | none => rw [hsub] at h; simp at h
              | some sub' =>
                  rw [hsub] at h
                  simp only [Option.map_some'] at h
                  cases h
                  have hsub' : SymFree sub' :=
                    symFree_setP (m :: rest) sub sub' c (symFree_lookupE hsf he) hsub
                  intro q t
                  cases q with
                  | nil => simp [lookupP]
                  | cons k qrest =>
                      show (match lookupE (replaceE es n sub') k with
                            | some s => lookupP s qrest
                            | none => none) ≠ some (.symlink t)
                      rw [lookupE_replaceE he sub' k]
                      by_cases hk : k = n
                      · rw [if_pos hk]
                        exact hsub' qrest t
                      · rw [if_neg hk]
                        cases he2 : lookupE es k with
                        | none => simp
                        | some s2 =>
                            exact symFree_lookupE hsf he2 qrest t

theorem generateKustomization_os (fuel : Nat) (root dirPath : Path) (fs : Entry)
    (hsf : SymFree fs) :
    (∀ ev ∈ (generateKustomization fuel root dirPath fs).2.1,
        ev.path = dirPath ++ [defaultKustomizationFileName])
    ∧ SymFree (generateKustomization fuel root dirPath fs).1 := by
  unfold generateKustomization
  cases hr : lookupP fs root with
  | none => exact ⟨fun ev hev => absurd hev (List.not_mem_nil ev), hsf⟩
  | some e =>
      cases e with
      | file c => exact ⟨fun ev hev => absurd hev (List.not_mem_nil ev), hsf⟩
      | symlink t => exact ⟨fun ev hev => absurd hev (List.not_mem_nil ev), hsf⟩
      | dir es =>
          dsimp only
          by_cases hk : hasKustomizationFileCheck fs root dirPath = true
          · rw [if_pos hk]
            exact ⟨fun ev hev => absurd hev (List.not_mem_nil ev), hsf⟩
          · rw [if_neg hk]
            unfold generateBody
            cases hscan : scanTop fuel fs root dirPath with
            | error err => exact ⟨fun ev hev => absurd hev (List.not_mem_nil ev), hsf⟩
            | ok files =>
                dsimp only
                have hres : resolvePath fs (dirPath ++ [defaultKustomizationFileName])
                    = dirPath ++ [defaultKustomizationFileName] :=
                  resolvePath_symFree hsf _
                unfold secCreate
                by_cases hsec :
                    securePathOk fs root (dirPath ++ [defaultKustomizationFileName]) = true
                · rw [if_pos hsec, hres]
                  cases hst : setP fs (dirPath ++ [defaultKustomizationFileName])
                      emptyFileContent with
                  | none => exact ⟨fun ev hev => absurd hev (List.not_mem_nil ev), hsf⟩
                  | some fs1 =>
                      dsimp only
                      have hsf1 : SymFree fs1 := symFree_setP _ fs fs1 _ hsf hst
                      have hres1 :
                          resolvePath fs1 (dirPath ++ [defaultKustomizationFileName])
                            = dirPath ++ [defaultKustomizationFileName] :=
                        resolvePath_symFree hsf1 _
                      unfold osWrite
                      rw [hres1]
                      dsimp only
                      cases hst2 : setP fs1 (dirPath ++ [defaultKustomizationFileName])
                          (FileContent.kusC
                            { emptyKustomization with
                                resources := genResources files dirPath }) with
                      | none =>
                          dsimp only
                          refine ⟨?_, hsf1⟩
                          intro ev hev
                          rcases List.mem_singleton.mp hev with rfl
                          rfl
                      | some fs2 =>
                          dsimp only
                          refine ⟨?_, symFree_setP _ fs1 fs2 _ hsf1 hst2⟩
                          intro ev hev
                          rcases List.mem_singleton.mp hev with rfl
                          rfl
                · rw [if_neg hsec]
                  exact ⟨fun ev hev => absurd hev (List.not_mem_nil ev), hsf⟩

theorem WriteFile_os (kg : KustomizeGenerator) (mOps : List String → Except String String)
    (fuel : Nat) (dirPath : Path) (fs : Entry) (hsf : SymFree fs) :
    ∀ ev ∈ (WriteFile kg mOps fuel dirPath fs).2.1,
      ev.path = dirPath ++ [defaultKustomizationFileName] := by
  have hgos := generateKustomization_os fuel kg.root dirPath fs hsf
  unfold WriteFile
  cases hgen : generateKustomization fuel kg.root dirPath fs with
  | mk fs1 evres =>
      obtain ⟨evs, res⟩ := evres
      rw [hgen] at hgos
      dsimp only at hgos
      obtain ⟨hevs, hsf1⟩ := hgos
      cases res with
      | error e => exact hevs
      | ok u =>
          dsimp only
          have hres1 : resolvePath fs1 (dirPath ++ [defaultKustomizationFileName])
              = dirPath ++ [defaultKustomizationFileName] :=
            resolvePath_symFree hsf1 _
          unfold osRead osWrite
          rw [hres1]
          dsimp only
          have hone : ∀ ev ∈ evs ++
              [OsEvent.osRead (dirPath ++ [defaultKustomizationFileName])],
              OsEvent.path ev = dirPath ++ [defaultKustomizationFileName] := by
            intro ev hev
            rcases List.mem_append.mp hev with h1 | h2
            · exact hevs ev h1
            · rcases List.mem_singleton.mp h2 with rfl
              rfl
          have htwo : ∀ ev ∈ evs ++
              [OsEvent.osRead (dirPath ++ [defaultKustomizationFileName]),
               OsEvent.osWrite (dirPath ++ [defaultKustomizationFileName])],
              OsEvent.path ev = dirPath ++ [defaultKustomizationFileName] := by
            intro ev hev
            rcases List.mem_append.mp hev with h1 | h2
            · exact hevs ev h1
            · rcases List.mem_cons.mp h2 with rfl | h3
              · rfl
              · rcases List.mem_singleton.mp h3 with rfl
                rfl
          cases hl : lookupP fs1 (dirPath ++ [defaultKustomizationFileName]) with
          | none => exact hone
          | some e =>
              cases e with
              | symlink t => exact hone
              | dir es2 => exact hone
              | file c =>
                  dsimp only
                  cases hku : c.asKus with
                  | none => exact hone
                  | some kus0 =>
                      dsimp only
                      cases happ : applyOverrides mOps kg.spec kus0 with
                      | error e2 => exact hone
                      | ok kus1 =>
                          dsimp only
                          cases hst : setP fs1 (dirPath ++ [defaultKustomizationFileName])
                              (FileContent.kusC kus1) with
                          | none => exact htwo
                          | some fs2 => exact htwo

/-- C1 (amended): the scan phase goes through the secure filesystem, so a
target directory outside the root makes the whole call fail with the
PathEscape error of the walk before any unchecked os-level I/O happens; and
on a symlink-free tree every unchecked os read/write of the call touches
only the descriptor path inside the root. (The unamended claim fails
because the descriptor read and write-back use plain os calls: see the
counterexample, where a symlinked descriptor path is read and written
outside the root.) -/
theorem spec_c1_confinement (mOps : List String → Except String String)
    (root dirPath : Path) (spec : KSpec) (fs : Entry) (fuel : Nat)
    (hsf : SymFree fs) (hroot : ∃ es, lookupP fs root = some (Entry.dir es)) :
    (root.isPrefixOf dirPath = false →
       WriteFile ⟨root, spec⟩ mOps fuel dirPath fs
         = (fs, [], .error (.pathEscape dirPath)))
    ∧ (root.isPrefixOf dirPath = true →
       ∀ ev ∈ (WriteFile ⟨root, spec⟩ mOps fuel dirPath fs).2.1,
         root.isPrefixOf ev.path = true) := by
  obtain ⟨es, hr⟩ := hroot
  constructor
  · intro hpre
    have hk : hasKustomizationFileCheck fs root dirPath = false := by
      cases hck : hasKustomizationFileCheck fs root dirPath with
      | false => rfl
      | true =>
          exfalso
          obtain ⟨n, hn, hcond⟩ := List.any_eq_true.mp hck
          simp only [Bool.and_eq_true] at hcond
          obtain ⟨hex, hnd⟩ := hcond
          simp only [secExists, Bool.and_eq_true] at hex
          obtain ⟨hsec, _⟩ := hex
          have hres : resolvePath fs (dirPath ++ [n]) = dirPath ++ [n] :=
            resolvePath_symFree hsf _
          have hp : root <+: dirPath ++ [n] := by
            apply List.isPrefixOf_iff_prefix.mp
            unfold securePathOk at hsec
            rwa [hres] at hsec
          rcases prefix_snoc hp with hcase | hcase
          · have hb := List.isPrefixOf_iff_prefix.mpr hcase
            rw [hpre] at hb
            cases hb
          · have hd : secIsDir fs root (dirPath ++ [n]) = true := by
              unfold secIsDir securePathOk
              rw [hres, ← hcase, hr]
              simp [List.isPrefixOf_iff_prefix]
            rw [hd] at hnd
            cases hnd
    have hsecd : securePathOk fs root dirPath = false := by
      unfold securePathOk
      rw [resolvePath_symFree hsf]
      exact hpre
    have hscan : scanTop fuel fs root dirPath = .error (.pathEscape dirPath) := by
      unfold scanTop
      rw [if_neg (by simp [hsecd])]
    have hgen : generateKustomization fuel root dirPath fs
        = (fs, [], .error (.pathEscape dirPath)) := by
      unfold generateKustomization
      rw [hr]
      dsimp only
      rw [if_neg (by simp [hk])]
      unfold generateBody
      rw [hscan]
    unfold WriteFile
    rw [hgen]
  · intro hpre ev hev
    have hall := WriteFile_os ⟨root, spec⟩ mOps fuel dirPath fs hsf ev hev
    rw [hall]
    exact List.isPrefixOf_iff_prefix.mpr
      ((List.isPrefixOf_iff_prefix.mp hpre).trans (List.prefix_append dirPath _))

/-- Counterexample to C1 as stated: on fsA the descriptor path inside the
root is a symbolic link to /out/k.yaml outside the root; WriteFile succeeds,
its unchecked os-level read and write both touch the out-of-root file, the
out-of-root file is overwritten with the overridden descriptor, and no
PathEscape error is reported — so the claim that every read and write is
confined to the root, with escapes failing before I/O, is false on the
code. -/
theorem spec_c1_counterexample :
    (WriteFile ⟨["r"], specProd⟩ mops0 10 ["r", "app"] fsA).2
        = ([.osRead ["out", "k.yaml"], .osWrite ["out", "k.yaml"]], .ok ())
    ∧ List.isPrefixOf ["r"] ["out", "k.yaml"] = false
    ∧ lookupP fsA ["out", "k.yaml"] = some (.file (.kusC kusOld))
    ∧ lookupP (WriteFile ⟨["r"], specProd⟩ mops0 10 ["r", "app"] fsA).1 ["out", "k.yaml"]
        = some (.file (.kusC kusProd))
    ∧ kusOld ≠ kusProd :=
  ⟨rfl, rfl, rfl, rfl, by decide⟩

/-- Witness for C1 at a concrete out-of-root target directory. -/
theorem spec_c1_confinement_witness :
    WriteFile ⟨["r"], specProd⟩ mops0 10 ["q"] fsD
      = (fsD, [], .error (.pathEscape ["q"])) :=
  (spec_c1_confinement mops0 ["r"] ["q"] specProd fsD 10
      (symFree_dirCons "r"
        (.dir [("app", .dir [("kustomization.yml", .file (.kusC kusOld))])]) []
        (symFree_dirCons "app" (.dir [("kustomization.yml", .file (.kusC kusOld))]) []
          (symFree_dirCons "kustomization.yml" (.file (.kusC kusOld)) []
            (symFree_file _) symFree_dirNil)
          symFree_dirNil)
        symFree_dirNil)
      ⟨[("app", .dir [("kustomization.yml", .file (.kusC kusOld))])], rfl⟩).1 rfl

/-- Witness for C8 on a tree whose descriptor uses the default name. -/
theorem spec_c8_generation_skip_witness :
    WriteFile ⟨["r"], specProd⟩ mops0 10 ["r", "app"] fsF
      = (Entry.dir [("r", .dir [("app", .dir [
            ("kustomization.yaml", .file (.kusC kusProd))])])],
         [.osRead ["r", "app", "kustomization.yaml"],
          .osWrite ["r", "app", "kustomization.yaml"]], .ok ()) :=
  (spec_c8_generation_skip mops0 specProd 10 ["r"] ["r", "app"] fsF).2.2.1 rfl
    ⟨[("app", Entry.dir [("kustomization.yaml", .file (.kusC kusOld))])], rfl⟩
    kusOld kusProd
    (Entry.dir [("r", .dir [("app", .dir [
       ("kustomization.yaml", .file (.kusC kusProd))])])])
    rfl rfl rfl

end KustomizeGen
